import Mathlib

/-!
Shallow embedding of the analytical core of the smart-dashboard repository:
the market-basket (Apriori) pipeline from src/analytics/market_basket.py and
the RFM segmentation pipeline from src/analytics/rfm_analysis.py, together
with theorems settling the frozen claims about them.

Numeric conventions of the embedding:
* Python float arithmetic over supports/confidences/lifts is embedded as exact
  rational arithmetic over ℚ (the spec itself reads these as exact fractions).
* The library operations `Rat.add`, `Rat.mul`, `Rat.inv`, `Rat.sub` are
  `@[irreducible]`, so concrete witnesses could not be evaluated through them
  by `decide`.  The embedding therefore computes with the kernel-reducible
  equivalents `qadd`, `qsub`, `qmul`, `qdiv` defined below via `Rat.divInt`;
  the bridge lemmas `qadd_eq`, `qsub_eq`, `qmul_eq`, `qdiv_eq` prove that they
  are exactly the field operations of ℚ.
* Quantities are embedded as ℤ, order dates as ℤ (days), wall-clock readings
  (`datetime.now()`) as an explicit ℤ parameter.
* A raised pandas exception is embedded as `Except.error` with the message.
-/

/-- Kernel-reducible division on ℚ; equals `a / b` by `qdiv_eq`. -/
def qdiv (a b : ℚ) : ℚ := Rat.divInt (a.num * b.den) (a.den * b.num)

/-- Kernel-reducible multiplication on ℚ; equals `a * b` by `qmul_eq`. -/
def qmul (a b : ℚ) : ℚ := Rat.divInt (a.num * b.num) (a.den * b.den)

/-- Kernel-reducible addition on ℚ; equals `a + b` by `qadd_eq`. -/
def qadd (a b : ℚ) : ℚ := Rat.divInt (a.num * b.den + b.num * a.den) (a.den * b.den)

/-- Kernel-reducible subtraction on ℚ; equals `a - b` by `qsub_eq`. -/
def qsub (a b : ℚ) : ℚ := Rat.divInt (a.num * b.den - b.num * a.den) (a.den * b.den)

theorem den_cast_ne_zero (a : ℚ) : ((a.den : ℚ)) ≠ 0 := by
  exact_mod_cast a.den_nz

theorem qdiv_eq (a b : ℚ) : qdiv a b = a / b := by
  rw [qdiv, Rat.divInt_eq_div]
  push_cast
  conv_rhs => rw [← Rat.num_div_den a, ← Rat.num_div_den b]
  rw [div_div_div_comm, ← div_div, div_div_eq_mul_div, div_mul_eq_mul_div, mul_comm]
  rw [div_div, div_div]
  ring_nf

theorem qmul_eq (a b : ℚ) : qmul a b = a * b := by
  rw [qmul, Rat.divInt_eq_div]
  push_cast
  conv_rhs => rw [← Rat.num_div_den a, ← Rat.num_div_den b]
  rw [div_mul_div_comm]

theorem qadd_eq (a b : ℚ) : qadd a b = a + b := by
  rw [qadd, Rat.divInt_eq_div]
  push_cast
  conv_rhs => rw [← Rat.num_div_den a, ← Rat.num_div_den b]
  rw [div_add_div _ _ (den_cast_ne_zero a) (den_cast_ne_zero b)]
  ring_nf

theorem qsub_eq (a b : ℚ) : qsub a b = a - b := by
  rw [qsub, Rat.divInt_eq_div]
  push_cast
  conv_rhs => rw [← Rat.num_div_den a, ← Rat.num_div_den b]
  rw [div_sub_div _ _ (den_cast_ne_zero a) (den_cast_ne_zero b)]
  ring_nf

/-! ## Market basket analysis: data model (src/analytics/market_basket.py) -/

/-- One transaction line-item: an (order id, product, quantity) row. -/
structure Txn where
  order : String
  product : String
  qty : ℤ
deriving DecidableEq

/-- The binary basket matrix produced by `create_basket_matrix`: the column
list (pandas columns, one per product) and one set of present products per
order (a row of the 0/1 matrix read as a set).  Column and row order carry no
analytical content; the embedding keeps first-occurrence order where pandas
sorts keys. -/
structure BasketMatrix where
  products : List String
  orders : List (Finset String)
deriving DecidableEq

/-- Summed quantity of product `p` inside order `o` (the groupby-sum cell). -/
def sumQty (rows : List Txn) (o p : String) : ℤ :=
  ((rows.filter (fun t => decide (t.order = o ∧ t.product = p))).map (fun t => t.qty)).sum

/-- `create_basket_matrix`: pivot to (order × product) summed quantities and
binarize (1 iff the summed quantity is > 0; absent cells are filled with 0,
hence also 0). -/
def create_basket_matrix (rows : List Txn) : BasketMatrix :=
  { products := (rows.map (fun t => t.product)).dedup
    orders := ((rows.map (fun t => t.order)).dedup).map (fun o =>
      (((rows.map (fun t => t.product)).dedup).filter
        (fun p => decide (0 < sumQty rows o p))).toFinset) }

/-! ## Frequent itemset miner (find_frequent_itemsets) -/

/-- Support of an itemset against the basket matrix: (orders containing every
member) / (total orders), as an exact fraction. -/
def itemSupport (orders : List (Finset String)) (S : Finset String) : ℚ :=
  Rat.divInt (orders.countP (fun o => decide (S ⊆ o))) orders.length

/-- The comparison `support >= min_support` as evaluated by the source.  With
zero orders the float support is 0/0 = NaN and every NaN comparison is false,
hence the explicit length guard. -/
def supportGe (orders : List (Finset String)) (ms : ℚ) (S : Finset String) : Bool :=
  orders.length != 0 && decide (ms ≤ itemSupport orders S)

/-- All pairwise unions `itemset1 | itemset2` over ordered pairs of distinct
positions, as produced by the nested candidate-generation loops. -/
def pairUnions : List (Finset String) → List (Finset String)
  | [] => []
  | x :: xs => xs.map (fun y => x ∪ y) ++ pairUnions xs

/-- Level-`k` candidate itemsets: pairwise unions of the previous level whose
union has exactly `k` members, deduplicated (the source accumulates them in a
set). -/
def aprioriCandidates (cur : List (Finset String)) (k : ℕ) : List (Finset String) :=
  ((pairUnions cur).filter (fun S => S.card == k)).dedup

/-- One level of the miner: generate candidates and keep those meeting the
support threshold. -/
def aprioriStep (orders : List (Finset String)) (ms : ℚ)
    (cur : List (Finset String)) (k : ℕ) : List (Finset String) :=
  (aprioriCandidates cur k).filter (supportGe orders ms)

/-- The `for length in range(2, max_length + 1)` loop with the early break when
no candidate survives a level.  `fuel` is the number of levels still to run
(`max_length - 1` at the initial call with `k = 2`). -/
def aprioriLevels (orders : List (Finset String)) (ms : ℚ) :
    ℕ → ℕ → List (Finset String) → List (Finset String)
  | _, 0, _ => []
  | k, fuel + 1, cur =>
    let nxt := aprioriStep orders ms cur k
    if nxt.isEmpty then [] else nxt ++ aprioriLevels orders ms (k + 1) fuel nxt

/-- All frequent itemsets accumulated across levels (dict insertion order):
surviving singletons first, then the surviving larger levels. -/
def freqItemsetsList (B : BasketMatrix) (ms : ℚ) (maxLen : ℕ) : List (Finset String) :=
  let singles := (B.products.map (fun p => ({p} : Finset String))).filter (supportGe B.orders ms)
  singles ++ aprioriLevels B.orders ms 2 (maxLen - 1) singles

/-- One row of the miner's output table.  The source stores itemsets as
canonically sorted tuples; here an itemset is linearized as the sublist of the
column list it induces (`length` column = list length). -/
structure FreqRow where
  itemsets : List String
  support : ℚ
deriving DecidableEq

/-- Linearization of an itemset into a tuple, in column order. -/
def canonList (products : List String) (S : Finset String) : List String :=
  products.filter (fun p => decide (p ∈ S))

/-- `find_frequent_itemsets`: frequent itemsets of every size up to
`max_length`, tagged with their support, sorted by descending support. -/
def find_frequent_itemsets (B : BasketMatrix) (ms : ℚ) (maxLen : ℕ) : List FreqRow :=
  ((freqItemsetsList B ms maxLen).map
      (fun S => FreqRow.mk (canonList B.products S) (itemSupport B.orders S))).insertionSort
    (fun r s => s.support ≤ r.support)

/-! ## Association rule generator (generate_associion_rules) -/

/-- One row of the rule table. -/
structure Rule where
  antecedents : List String
  consequents : List String
  antecedent_support : ℚ
  consequent_support : ℚ
  support : ℚ
  confidence : ℚ
  lift : ℚ
deriving DecidableEq

/-- `support_dict.get(key, 0)`: the support stored for an itemset, 0 when the
itemset is absent.  The dict comprehension keeps the last row for a repeated
key, hence the lookup on the reversed table. -/
def lookupSupport (freq : List FreqRow) (S : List String) : ℚ :=
  match freq.reverse.find? (fun r => r.itemsets == S) with
  | some r => r.support
  | none => 0

/-- The consequent of a split: the members of the itemset not in the
antecedent (the source sorts this tuple; itemset rows are already canonically
ordered, and the embedding keeps the parent tuple's order). -/
def ruleConsequent (itemset A : List String) : List String :=
  itemset.filter (fun p => decide (p ∉ A))

/-- `lift = confidence / support(B)` when `support(B) > 0`, else 0. -/
def ruleLift (freq : List FreqRow) (conf : ℚ) (c : List String) : ℚ :=
  if 0 < lookupSupport freq c then qdiv conf (lookupSupport freq c) else 0

/-- The rule record produced for a single antecedent `A` of an itemset, `none`
when any of the source's skip conditions fires: `A` outside the
`combinations(itemset, i)` range `i = 1..len-1`, empty consequent, zero
antecedent support, confidence below `min_confidence`, lift below
`min_lift`. -/
def ruleCandidate (freq : List FreqRow) (mc ml : ℚ) (itemset : List String)
    (sSup : ℚ) (A : List String) : Option Rule :=
  if A = [] ∨ A = itemset then none else
  if ruleConsequent itemset A = [] then none else
  if lookupSupport freq A = 0 then none else
  if qdiv sSup (lookupSupport freq A) < mc then none else
  if ruleLift freq (qdiv sSup (lookupSupport freq A)) (ruleConsequent itemset A) < ml
    then none else
  some (Rule.mk A (ruleConsequent itemset A) (lookupSupport freq A)
    (lookupSupport freq (ruleConsequent itemset A)) sSup
    (qdiv sSup (lookupSupport freq A))
    (ruleLift freq (qdiv sSup (lookupSupport freq A)) (ruleConsequent itemset A)))

/-- All rule records generated from one frequent itemset: every non-empty
proper antecedent (the `combinations(itemset, i)` loops for `i = 1..len-1`),
with the complement as consequent, filtered exactly as the source filters. -/
def rulesForItemset (freq : List FreqRow) (mc ml : ℚ)
    (itemset : List String) (sSup : ℚ) : List Rule :=
  itemset.sublists.filterMap (ruleCandidate freq mc ml itemset sSup)

/-- `generate_associion_rules`.  An empty itemset table is the `length`-less
`pd.DataFrame([])` the miner returns for empty input, so indexing the `length`
column raises `KeyError`; otherwise: rules from every itemset of size ≥ 2,
sorted by descending lift. -/
def generate_associion_rules (freq : List FreqRow) (mc ml : ℚ) :
    Except String (List Rule) :=
  if freq.isEmpty then Except.error "KeyError: length" else
  Except.ok
    (((freq.filter (fun r => decide (2 ≤ r.itemsets.length))).flatMap
        (fun r => rulesForItemset freq mc ml r.itemsets r.support)).insertionSort
      (fun r s => s.lift ≤ r.lift))

/-- `market_basket_analysis`: the full basket pipeline. -/
def market_basket_analysis (rows : List Txn) (ms mc ml : ℚ) (maxLen : ℕ) :
    List FreqRow × Except String (List Rule) :=
  let basket := create_basket_matrix rows
  let freq := find_frequent_itemsets basket ms maxLen
  (freq, generate_associion_rules freq mc ml)

/-- One row of the recommendation table. -/
structure RecRow where
  product : String
  confidence : ℚ
  lift : ℚ
  support : ℚ
deriving DecidableEq

/-- `get_product_recommendations`: rules whose antecedent contains the product,
consequent products flattened one row per occurrence, sorted by descending
lift, truncated to `top_n`. -/
def get_product_recommendations (rules : List Rule) (product_name : String)
    (top_n : ℕ) : List RecRow :=
  let relevant := rules.filter (fun r => decide (product_name ∈ r.antecedents))
  ((relevant.flatMap (fun r =>
      r.consequents.map (fun p => RecRow.mk p r.confidence r.lift r.support))).insertionSort
    (fun a b => b.lift ≤ a.lift)).take top_n

deriving instance DecidableEq for Except

/-! ## Lemmas about the miner -/

theorem itemSupport_eq_div (orders : List (Finset String)) (S : Finset String) :
    itemSupport orders S =
      ((orders.countP (fun o => decide (S ⊆ o)) : ℕ) : ℚ) / ((orders.length : ℕ) : ℚ) := by
  rw [itemSupport, Rat.divInt_eq_div]
  push_cast
  rfl

theorem itemSupport_anti (orders : List (Finset String)) {S T : Finset String}
    (h : S ⊆ T) : itemSupport orders T ≤ itemSupport orders S := by
  have hc : orders.countP (fun o => decide (T ⊆ o)) ≤
      orders.countP (fun o => decide (S ⊆ o)) := by
    apply List.countP_mono_left
    intro o _ hT
    simp only [decide_eq_true_eq] at hT ⊢
    exact h.trans hT
  rw [itemSupport_eq_div, itemSupport_eq_div]
  rcases Nat.eq_zero_or_pos orders.length with h0 | h0
  · simp [h0]
  · have hpos : (0 : ℚ) < ((orders.length : ℕ) : ℚ) := by exact_mod_cast h0
    exact (div_le_div_iff_of_pos_right hpos).mpr (by exact_mod_cast hc)

theorem supportGe_true_iff (orders : List (Finset String)) (ms : ℚ) (S : Finset String) :
    supportGe orders ms S = true ↔ orders.length ≠ 0 ∧ ms ≤ itemSupport orders S := by
  simp [supportGe]

theorem supportGe_anti (orders : List (Finset String)) (ms : ℚ) {S T : Finset String}
    (h : S ⊆ T) (hT : supportGe orders ms T = true) : supportGe orders ms S = true := by
  rw [supportGe_true_iff] at hT ⊢
  exact ⟨hT.1, hT.2.trans (itemSupport_anti orders h)⟩

theorem exists_order_superset (orders : List (Finset String)) (ms : ℚ) (hms : 0 < ms)
    {S : Finset String} (h : supportGe orders ms S = true) : ∃ o ∈ orders, S ⊆ o := by
  rw [supportGe_true_iff] at h
  by_contra hno
  push_neg at hno
  have hc : orders.countP (fun o => decide (S ⊆ o)) = 0 := by
    rw [List.countP_eq_zero]
    intro o ho
    simpa using hno o ho
  have h2 := h.2
  rw [itemSupport_eq_div, hc] at h2
  norm_num at h2
  linarith

theorem mem_pairUnions {l : List (Finset String)} {x y : Finset String}
    (hx : x ∈ l) (hy : y ∈ l) (hxy : x ≠ y) : x ∪ y ∈ pairUnions l := by
  induction l with
  | nil => cases hx
  | cons z zs ih =>
    rw [pairUnions, List.mem_append]
    rcases List.mem_cons.mp hx with rfl | hx2
    · left
      rcases List.mem_cons.mp hy with rfl | hy2
      · exact absurd rfl hxy
      · exact List.mem_map.mpr ⟨y, hy2, rfl⟩
    · rcases List.mem_cons.mp hy with rfl | hy2
      · left
        refine List.mem_map.mpr ⟨x, hx2, ?_⟩
        rw [Finset.union_comm]
      · right
        exact ih hx2 hy2

theorem aprioriStep_mem (orders : List (Finset String)) (ms : ℚ)
    (cur : List (Finset String)) (k : ℕ) (hk : 2 ≤ k)
    (hcur : ∀ T, T ∈ cur ↔ (T.card = k - 1 ∧ supportGe orders ms T = true)) :
    ∀ S, S ∈ aprioriStep orders ms cur k ↔
      (S.card = k ∧ supportGe orders ms S = true) := by
  intro S
  constructor
  · intro hS
    rw [aprioriStep, List.mem_filter] at hS
    obtain ⟨hcand, hsup⟩ := hS
    rw [aprioriCandidates, List.mem_dedup, List.mem_filter] at hcand
    refine ⟨?_, hsup⟩
    simpa using hcand.2
  · rintro ⟨hcard, hsup⟩
    rw [aprioriStep, List.mem_filter]
    refine ⟨?_, hsup⟩
    rw [aprioriCandidates, List.mem_dedup, List.mem_filter]
    refine ⟨?_, by simp [hcard]⟩
    have h2 : 1 < S.card := by omega
    obtain ⟨a, ha, b, hb, hab⟩ := Finset.one_lt_card.mp h2
    have hxa : S.erase a ∈ cur := by
      rw [hcur]
      refine ⟨?_, supportGe_anti orders ms (Finset.erase_subset a S) hsup⟩
      rw [Finset.card_erase_of_mem ha, hcard]
    have hxb : S.erase b ∈ cur := by
      rw [hcur]
      refine ⟨?_, supportGe_anti orders ms (Finset.erase_subset b S) hsup⟩
      rw [Finset.card_erase_of_mem hb, hcard]
    have hne : S.erase a ≠ S.erase b := by
      intro hEq
      have hbmem : b ∈ S.erase a := Finset.mem_erase.mpr ⟨Ne.symm hab, hb⟩
      rw [hEq] at hbmem
      exact (Finset.not_mem_erase b S) hbmem
    have hun : S.erase a ∪ S.erase b = S := by
      ext t
      simp only [Finset.mem_union, Finset.mem_erase]
      constructor
      · rintro (⟨_, ht⟩ | ⟨_, ht⟩) <;> exact ht
      · intro ht
        by_cases hta : t = a
        · right
          exact ⟨by rw [hta]; exact hab, ht⟩
        · left
          exact ⟨hta, ht⟩
    have hmem := mem_pairUnions hxa hxb hne
    rw [hun] at hmem
    exact hmem

theorem aprioriLevels_mem (orders : List (Finset String)) (ms : ℚ) :
    ∀ (fuel k : ℕ) (cur : List (Finset String)), 2 ≤ k →
      (∀ T, T ∈ cur ↔ (T.card = k - 1 ∧ supportGe orders ms T = true)) →
      ∀ S, S ∈ aprioriLevels orders ms k fuel cur ↔
        (k ≤ S.card ∧ S.card < k + fuel ∧ supportGe orders ms S = true) := by
  intro fuel
  induction fuel with
  | zero =>
    intro k cur hk hcur S
    rw [aprioriLevels]
    simp only [List.not_mem_nil, false_iff]
    rintro ⟨h1, h2, _⟩
    omega
  | succ fuel ih =>
    intro k cur hk hcur S
    rw [aprioriLevels]
    have hstep := aprioriStep_mem orders ms cur k hk hcur
    by_cases hemp : (aprioriStep orders ms cur k).isEmpty
    · rw [if_pos hemp]
      simp only [List.not_mem_nil, false_iff]
      rintro ⟨h1, _, h3⟩
      obtain ⟨T, hTS, hTcard⟩ := Finset.exists_subset_card_eq h1
      have hTfreq : supportGe orders ms T = true := supportGe_anti orders ms hTS h3
      have hTmem : T ∈ aprioriStep orders ms cur k := (hstep T).mpr ⟨hTcard, hTfreq⟩
      rw [List.isEmpty_iff] at hemp
      rw [hemp] at hTmem
      cases hTmem
    · rw [if_neg hemp, List.mem_append]
      have hnext : ∀ T, T ∈ aprioriStep orders ms cur k ↔
          (T.card = (k + 1) - 1 ∧ supportGe orders ms T = true) := by
        intro T
        have hk1 : k + 1 - 1 = k := by omega
        rw [hstep, hk1]
      rw [hstep, ih (k + 1) _ (by omega) hnext]
      constructor
      · rintro (⟨h1, h2⟩ | ⟨h1, h2, h3⟩)
        · exact ⟨by omega, by omega, h2⟩
        · exact ⟨by omega, by omega, h3⟩
      · rintro ⟨h1, h2, h3⟩
        by_cases hc : S.card = k
        · left
          exact ⟨hc, h3⟩
        · right
          exact ⟨by omega, by omega, h3⟩

theorem freqItemsetsList_mem (B : BasketMatrix) (ms : ℚ) (maxLen : ℕ)
    (hms : 0 < ms) (hlen : 1 ≤ maxLen)
    (hsub : ∀ o ∈ B.orders, o ⊆ B.products.toFinset) :
    ∀ S, S ∈ freqItemsetsList B ms maxLen ↔
      (1 ≤ S.card ∧ S.card ≤ maxLen ∧ supportGe B.orders ms S = true) := by
  have hsingles : ∀ S, S ∈ (B.products.map (fun p => ({p} : Finset String))).filter
      (supportGe B.orders ms) ↔ (S.card = 1 ∧ supportGe B.orders ms S = true) := by
    intro S
    rw [List.mem_filter]
    constructor
    · rintro ⟨hmem, hsup⟩
      obtain ⟨p, _, rfl⟩ := List.mem_map.mp hmem
      exact ⟨Finset.card_singleton p, hsup⟩
    · rintro ⟨hcard, hsup⟩
      obtain ⟨p, rfl⟩ := Finset.card_eq_one.mp hcard
      refine ⟨List.mem_map.mpr ⟨p, ?_, rfl⟩, hsup⟩
      obtain ⟨o, ho, hSo⟩ := exists_order_superset B.orders ms hms hsup
      exact List.mem_toFinset.mp (hsub o ho (hSo (Finset.mem_singleton_self p)))
  intro S
  rw [freqItemsetsList]
  simp only [List.mem_append]
  rw [hsingles, aprioriLevels_mem B.orders ms (maxLen - 1) 2 _ (by omega)
    (fun T => hsingles T)]
  constructor
  · rintro (⟨h1, h2⟩ | ⟨h1, h2, h3⟩)
    · exact ⟨by omega, by omega, h2⟩
    · exact ⟨by omega, by omega, h3⟩
  · rintro ⟨h1, h2, h3⟩
    by_cases hc : S.card = 1
    · left
      exact ⟨hc, h3⟩
    · right
      exact ⟨by omega, by omega, h3⟩

theorem canonList_toFinset (products : List String) (S : Finset String)
    (h : S ⊆ products.toFinset) : (canonList products S).toFinset = S := by
  ext p
  simp only [canonList, List.mem_toFinset, List.mem_filter, decide_eq_true_eq]
  constructor
  · rintro ⟨_, hp⟩
    exact hp
  · intro hp
    exact ⟨List.mem_toFinset.mp (h hp), hp⟩

theorem supportGe_subset_products (B : BasketMatrix) (ms : ℚ) (hms : 0 < ms)
    (hsub : ∀ o ∈ B.orders, o ⊆ B.products.toFinset) {S : Finset String}
    (h : supportGe B.orders ms S = true) : S ⊆ B.products.toFinset := by
  obtain ⟨o, ho, hSo⟩ := exists_order_superset B.orders ms hms h
  exact hSo.trans (hsub o ho)

/-- C1: on a basket matrix with at least one order, parameters
min_support ∈ (0,1] and max_length ≥ 1, the miner outputs an itemset `S` with
1 ≤ |S| ≤ max_length iff support(S) = (orders containing S)/(total orders) is
at least min_support, and the reported support equals that exact fraction,
despite pairwise-union candidate generation and the early-stop rule. -/
theorem find_frequent_itemsets_mem_iff_support
    (B : BasketMatrix) (ms : ℚ) (maxLen : ℕ)
    (hord : B.orders ≠ []) (hms0 : 0 < ms) (hms1 : ms ≤ 1) (hlen : 1 ≤ maxLen)
    (hsub : ∀ o ∈ B.orders, o ⊆ B.products.toFinset)
    (S : Finset String) (hS1 : 1 ≤ S.card) (hS2 : S.card ≤ maxLen) :
    ((∃ r ∈ find_frequent_itemsets B ms maxLen, r.itemsets.toFinset = S) ↔
      ms ≤ ((B.orders.countP (fun o => decide (S ⊆ o)) : ℕ) : ℚ) /
        ((B.orders.length : ℕ) : ℚ)) ∧
    (∀ r ∈ find_frequent_itemsets B ms maxLen, r.itemsets.toFinset = S →
      r.support = ((B.orders.countP (fun o => decide (S ⊆ o)) : ℕ) : ℚ) /
        ((B.orders.length : ℕ) : ℚ)) := by
  have hlen0 : B.orders.length ≠ 0 := by
    simpa [List.length_eq_zero] using hord
  have hmemList := freqItemsetsList_mem B ms maxLen hms0 hlen hsub
  have hmemSort : ∀ r, r ∈ find_frequent_itemsets B ms maxLen ↔
      r ∈ (freqItemsetsList B ms maxLen).map
        (fun T => FreqRow.mk (canonList B.products T) (itemSupport B.orders T)) := by
    intro r
    exact (List.perm_insertionSort _ _).mem_iff
  constructor
  · constructor
    · rintro ⟨r, hr, hrS⟩
      rw [hmemSort] at hr
      obtain ⟨T, hT, rfl⟩ := List.mem_map.mp hr
      have hTfreq := ((hmemList T).mp hT).2.2
      have hTsub := supportGe_subset_products B ms hms0 hsub hTfreq
      have hTS : T = S := by
        rw [← hrS]
        exact (canonList_toFinset B.products T hTsub).symm
      subst hTS
      rw [← itemSupport_eq_div]
      exact ((supportGe_true_iff _ _ _).mp hTfreq).2
    · intro hfrac
      have hGe : supportGe B.orders ms S = true := by
        rw [supportGe_true_iff, itemSupport_eq_div]
        exact ⟨hlen0, hfrac⟩
      have hS : S ∈ freqItemsetsList B ms maxLen := (hmemList S).mpr ⟨hS1, hS2, hGe⟩
      refine ⟨FreqRow.mk (canonList B.products S) (itemSupport B.orders S), ?_, ?_⟩
      · rw [hmemSort]
        exact List.mem_map.mpr ⟨S, hS, rfl⟩
      · exact canonList_toFinset B.products S
          (supportGe_subset_products B ms hms0 hsub hGe)
  · intro r hr hrS
    rw [hmemSort] at hr
    obtain ⟨T, hT, rfl⟩ := List.mem_map.mp hr
    have hTfreq := ((hmemList T).mp hT).2.2
    have hTsub := supportGe_subset_products B ms hms0 hsub hTfreq
    have hTS : T = S := by
      rw [← hrS]
      exact (canonList_toFinset B.products T hTsub).symm
    subst hTS
    exact itemSupport_eq_div B.orders T

/-- Witness for C1 at the spec's scenario-1 matrix (orders {A,B}, {A,B,C},
{A}) with S = {A,B}, min_support = 1/2, max_length = 3. -/
theorem find_frequent_itemsets_mem_iff_support_witness :
    (∃ r ∈ find_frequent_itemsets
        (BasketMatrix.mk ["A", "B", "C"] [{"A", "B"}, {"A", "B", "C"}, {"A"}])
        (Rat.divInt 1 2) 3, r.itemsets.toFinset = ({"A", "B"} : Finset String)) ↔
      Rat.divInt 1 2 ≤
        (([({"A", "B"} : Finset String), {"A", "B", "C"}, {"A"}].countP
            (fun o => decide (({"A", "B"} : Finset String) ⊆ o)) : ℕ) : ℚ) /
          (([({"A", "B"} : Finset String), {"A", "B", "C"}, {"A"}].length : ℕ) : ℚ) :=
  (find_frequent_itemsets_mem_iff_support
    (BasketMatrix.mk ["A", "B", "C"] [{"A", "B"}, {"A", "B", "C"}, {"A"}])
    (Rat.divInt 1 2) 3 (by decide) (by decide) (by decide) (by decide) (by decide)
    ({"A", "B"} : Finset String) (by decide) (by decide)).1

theorem aprioriLevels_supportGe (orders : List (Finset String)) (ms : ℚ) :
    ∀ (fuel k : ℕ) (cur : List (Finset String)) (S : Finset String),
      S ∈ aprioriLevels orders ms k fuel cur → supportGe orders ms S = true := by
  intro fuel
  induction fuel with
  | zero =>
    intro k cur S h
    rw [aprioriLevels] at h
    cases h
  | succ fuel ih =>
    intro k cur S h
    rw [aprioriLevels] at h
    by_cases hemp : (aprioriStep orders ms cur k).isEmpty
    · rw [if_pos hemp] at h
      cases h
    · rw [if_neg hemp, List.mem_append] at h
      rcases h with h | h
      · exact (List.mem_filter.mp h).2
      · exact ih (k + 1) _ S h

theorem freqItemsetsList_supportGe (B : BasketMatrix) (ms : ℚ) (maxLen : ℕ) :
    ∀ S ∈ freqItemsetsList B ms maxLen, supportGe B.orders ms S = true := by
  intro S hS
  rw [freqItemsetsList] at hS
  simp only [List.mem_append] at hS
  rcases hS with hS | hS
  · exact (List.mem_filter.mp hS).2
  · exact aprioriLevels_supportGe B.orders ms _ _ _ S hS

theorem ruleCandidate_eq_some {freq : List FreqRow} {mc ml : ℚ}
    {itemset A : List String} {sSup : ℚ} {r : Rule}
    (h : ruleCandidate freq mc ml itemset sSup A = some r) :
    r.antecedents = A ∧
    r.consequents = ruleConsequent itemset A ∧
    r.antecedent_support = lookupSupport freq A ∧
    r.consequent_support = lookupSupport freq (ruleConsequent itemset A) ∧
    r.support = sSup ∧
    r.confidence = qdiv sSup (lookupSupport freq A) ∧
    r.lift = ruleLift freq r.confidence r.consequents ∧
    lookupSupport freq A ≠ 0 ∧ mc ≤ r.confidence ∧ ml ≤ r.lift := by
  rw [ruleCandidate] at h
  split_ifs at h with h1 h2 h3 h4 h5
  injection h with h6
  subst h6
  exact ⟨rfl, rfl, rfl, rfl, rfl, rfl, rfl, h3, not_lt.mp h4, not_lt.mp h5⟩

theorem mem_rulesForItemset {freq : List FreqRow} {mc ml : ℚ}
    {itemset : List String} {sSup : ℚ} {r : Rule}
    (h : r ∈ rulesForItemset freq mc ml itemset sSup) :
    ∃ A, ruleCandidate freq mc ml itemset sSup A = some r := by
  rw [rulesForItemset, List.mem_filterMap] at h
  obtain ⟨A, _, hA⟩ := h
  exact ⟨A, hA⟩

theorem generate_ok_mem {freq : List FreqRow} {mc ml : ℚ} {rules : List Rule}
    (hok : generate_associion_rules freq mc ml = Except.ok rules) {r : Rule}
    (hr : r ∈ rules) :
    ∃ row ∈ freq.filter (fun x => decide (2 ≤ x.itemsets.length)),
      r ∈ rulesForItemset freq mc ml row.itemsets row.support := by
  rw [generate_associion_rules] at hok
  split_ifs at hok with hemp
  cases hok
  have hmem := (List.perm_insertionSort _ _).mem_iff.mp hr
  rw [List.mem_flatMap] at hmem
  obtain ⟨row, hrow, hin⟩ := hmem
  exact ⟨row, hrow, hin⟩

/-- C2: every itemset row output by the miner has support ≥ min_support, and
every rule row output by the generator has confidence ≥ min_confidence and
lift ≥ min_lift — for every input and every threshold setting. -/
theorem threshold_consistency :
    (∀ (B : BasketMatrix) (ms : ℚ) (maxLen : ℕ) (r : FreqRow),
        r ∈ find_frequent_itemsets B ms maxLen → ms ≤ r.support) ∧
    (∀ (freq : List FreqRow) (mc ml : ℚ) (rules : List Rule) (r : Rule),
        generate_associion_rules freq mc ml = Except.ok rules → r ∈ rules →
          mc ≤ r.confidence ∧ ml ≤ r.lift) := by
  constructor
  · intro B ms maxLen r hr
    have hr2 := (List.perm_insertionSort _ _).mem_iff.mp hr
    obtain ⟨T, hT, rfl⟩ := List.mem_map.mp hr2
    exact ((supportGe_true_iff _ _ _).mp (freqItemsetsList_supportGe B ms maxLen T hT)).2
  · intro freq mc ml rules r hok hr
    obtain ⟨row, _, hmem⟩ := generate_ok_mem hok hr
    obtain ⟨A, hA⟩ := mem_rulesForItemset hmem
    obtain ⟨_, _, _, _, _, _, _, _, hconf, hlift⟩ := ruleCandidate_eq_some hA
    exact ⟨hconf, hlift⟩

/-- Witness for C2 at the scenario-1 matrix: the itemset row ({A}, 1.0) is in
the miner's output and its support meets min_support = 1/2. -/
theorem threshold_consistency_witness :
    (FreqRow.mk ["A"] 1 ∈ find_frequent_itemsets
        (BasketMatrix.mk ["A", "B", "C"] [{"A", "B"}, {"A", "B", "C"}, {"A"}])
        (Rat.divInt 1 2) 3) ∧ Rat.divInt 1 2 ≤ (1 : ℚ) :=
  ⟨by decide,
    threshold_consistency.1
      (BasketMatrix.mk ["A", "B", "C"] [{"A", "B"}, {"A", "B", "C"}, {"A"}])
      (Rat.divInt 1 2) 3 (FreqRow.mk ["A"] 1) (by decide)⟩

theorem lookupSupport_ne_zero {freq : List FreqRow} {S : List String}
    (h : lookupSupport freq S ≠ 0) :
    ∃ row ∈ freq, row.itemsets = S ∧ row.support = lookupSupport freq S := by
  cases hfind : freq.reverse.find? (fun r => r.itemsets == S) with
  | none =>
    rw [lookupSupport, hfind] at h
    exact absurd rfl h
  | some row =>
    have hmem := List.mem_reverse.mp (List.mem_of_find?_eq_some hfind)
    have hpred := List.find?_some hfind
    refine ⟨row, hmem, by simpa using hpred, ?_⟩
    rw [lookupSupport, hfind]

theorem lookupSupport_eq_zero_of_absent {freq : List FreqRow} {S : List String}
    (h : ∀ row ∈ freq, row.itemsets ≠ S) : lookupSupport freq S = 0 := by
  cases hfind : freq.reverse.find? (fun r => r.itemsets == S) with
  | none =>
    rw [lookupSupport, hfind]
  | some row =>
    have hmem := List.mem_reverse.mp (List.mem_of_find?_eq_some hfind)
    have hpred := List.find?_some hfind
    exact absurd (by simpa using hpred) (h row hmem)

/-- C5 amended: for every emitted rule, the antecedent's support is present in
the itemset table (and nonzero); a split whose consequent support is absent
gets lift 0 and is therefore emitted only when min_lift ≤ 0 (for min_lift > 0
the claim holds as stated). -/
theorem rules_support_lookup (freq : List FreqRow) (mc ml : ℚ) (rules : List Rule)
    (r : Rule) (hok : generate_associion_rules freq mc ml = Except.ok rules)
    (hr : r ∈ rules) :
    (∃ row ∈ freq, row.itemsets = r.antecedents ∧ row.support = r.antecedent_support) ∧
    r.antecedent_support ≠ 0 ∧
    ((∀ row ∈ freq, row.itemsets ≠ r.consequents) → r.lift = 0 ∧ ml ≤ 0) := by
  obtain ⟨row, _, hmem⟩ := generate_ok_mem hok hr
  obtain ⟨A, hA⟩ := mem_rulesForItemset hmem
  obtain ⟨hant, hcons, haSup, hbSup, hsup, hconf, hlift, hane, hmc, hml⟩ :=
    ruleCandidate_eq_some hA
  subst hant
  refine ⟨?_, ?_, ?_⟩
  · obtain ⟨row2, h1, h2, h3⟩ := lookupSupport_ne_zero (S := r.antecedents) hane
    exact ⟨row2, h1, h2, by rw [h3, haSup]⟩
  · rw [haSup]
    exact hane
  · intro habs
    have hzero : lookupSupport freq r.consequents = 0 :=
      lookupSupport_eq_zero_of_absent habs
    have hl0 : r.lift = 0 := by
      rw [hlift, ruleLift, hzero]
      simp
    exact ⟨hl0, hml.trans_eq hl0⟩

/-- C5 counterexample: with min_lift = 0, the split {a,b} = {a} ⇒ {b} against
a table not containing itemset {b} is emitted anyway (consequent_support 0,
lift 0), so a missing consequent support does not always skip the split. -/
theorem rules_missing_consequent_emitted :
    generate_associion_rules
        [FreqRow.mk ["a"] (Rat.divInt 1 2), FreqRow.mk ["a", "b"] (Rat.divInt 1 2)]
        (Rat.divInt 1 2) 0 =
      Except.ok [Rule.mk ["a"] ["b"] (Rat.divInt 1 2) 0 (Rat.divInt 1 2) 1 0] ∧
    (∀ row ∈ [FreqRow.mk ["a"] (Rat.divInt 1 2), FreqRow.mk ["a", "b"] (Rat.divInt 1 2)],
      row.itemsets ≠ ["b"]) := by
  decide

/-- Witness for the amended C5 on a complete table (min_lift = 1): the rule
{a} ⇒ {b} is emitted and its antecedent support is present in the table. -/
theorem rules_support_lookup_witness :
    (∃ row ∈ [FreqRow.mk ["a"] (Rat.divInt 1 2), FreqRow.mk ["b"] (Rat.divInt 1 2),
        FreqRow.mk ["a", "b"] (Rat.divInt 1 2)],
      row.itemsets = ["a"] ∧ row.support = Rat.divInt 1 2) ∧
    Rat.divInt 1 2 ≠ (0 : ℚ) ∧
    ((∀ row ∈ [FreqRow.mk ["a"] (Rat.divInt 1 2), FreqRow.mk ["b"] (Rat.divInt 1 2),
        FreqRow.mk ["a", "b"] (Rat.divInt 1 2)],
      row.itemsets ≠ ["b"]) → (2 : ℚ) = 0 ∧ (1 : ℚ) ≤ 0) :=
  rules_support_lookup
    [FreqRow.mk ["a"] (Rat.divInt 1 2), FreqRow.mk ["b"] (Rat.divInt 1 2),
      FreqRow.mk ["a", "b"] (Rat.divInt 1 2)]
    (Rat.divInt 1 2) 1
    [Rule.mk ["a"] ["b"] (Rat.divInt 1 2) (Rat.divInt 1 2) (Rat.divInt 1 2) 1 2,
      Rule.mk ["b"] ["a"] (Rat.divInt 1 2) (Rat.divInt 1 2) (Rat.divInt 1 2) 1 2]
    (Rule.mk ["a"] ["b"] (Rat.divInt 1 2) (Rat.divInt 1 2) (Rat.divInt 1 2) 1 2)
    (by decide) (by decide)

theorem find_frequent_itemsets_no_orders (products : List String) (ms : ℚ)
    (maxLen : ℕ) :
    find_frequent_itemsets (BasketMatrix.mk products []) ms maxLen = [] := by
  have hGe : ∀ S, supportGe (BasketMatrix.mk products []).orders ms S = false := by
    intro S
    rfl
  have hsingles : (products.map (fun p => ({p} : Finset String))).filter
      (supportGe (BasketMatrix.mk products []).orders ms) = [] := by
    rw [List.filter_eq_nil]
    intro a _
    simp [hGe]
  have hlev : ∀ fuel k, aprioriLevels (BasketMatrix.mk products []).orders ms k fuel [] = [] := by
    intro fuel k
    cases fuel with
    | zero => rw [aprioriLevels]
    | succ n =>
      rw [aprioriLevels]
      simp [aprioriStep, aprioriCandidates, pairUnions]
  rw [find_frequent_itemsets, freqItemsetsList]
  simp only [hsingles, hlev]
  rfl

/-- C8 counterexample: a transaction with quantity 0 creates a product column
whose entries are all zero, so a product key of the matrix need not appear in
any order. -/
theorem basket_zero_quantity_column :
    (create_basket_matrix [Txn.mk "O1" "P" 0]).products = ["P"] ∧
    (∀ o ∈ (create_basket_matrix [Txn.mk "O1" "P" 0]).orders, "P" ∉ o) := by
  decide

/-- C8 amended: when every transaction quantity is positive (the intended
shape of order line-items), every product column of the basket matrix appears
in at least one order of the matrix. -/
theorem basket_columns_nonzero (rows : List Txn)
    (hpos : ∀ t ∈ rows, 0 < t.qty) :
    ∀ p ∈ (create_basket_matrix rows).products,
      ∃ o ∈ (create_basket_matrix rows).orders, p ∈ o := by
  intro p hp
  simp only [create_basket_matrix] at hp ⊢
  rw [List.mem_dedup] at hp
  obtain ⟨t, ht, rfl⟩ := List.mem_map.mp hp
  refine ⟨_, List.mem_map.mpr ⟨t.order, List.mem_dedup.mpr (List.mem_map.mpr ⟨t, ht, rfl⟩), rfl⟩, ?_⟩
  rw [List.mem_toFinset, List.mem_filter]
  refine ⟨List.mem_dedup.mpr (List.mem_map.mpr ⟨t, ht, rfl⟩), ?_⟩
  simp only [decide_eq_true_eq]
  rw [sumQty]
  apply List.sum_pos
  · intro x hx
    obtain ⟨s, hs, rfl⟩ := List.mem_map.mp hx
    exact hpos s (List.mem_of_mem_filter hs)
  · have htf : t ∈ rows.filter
        (fun s => decide (s.order = t.order ∧ s.product = t.product)) := by
      rw [List.mem_filter]
      exact ⟨ht, by simp⟩
    intro hnil
    rw [List.map_eq_nil] at hnil
    rw [hnil] at htf
    cases htf

/-- Witness for the amended C8 on a single positive-quantity transaction. -/
theorem basket_columns_nonzero_witness :
    (∀ t ∈ [Txn.mk "O1" "P" 2], 0 < t.qty) ∧
    (∀ p ∈ (create_basket_matrix [Txn.mk "O1" "P" 2]).products,
      ∃ o ∈ (create_basket_matrix [Txn.mk "O1" "P" 2]).orders, p ∈ o) :=
  ⟨by decide, basket_columns_nonzero [Txn.mk "O1" "P" 2] (by decide)⟩

/-- C9 counterexample: two rules with antecedent containing x and the same
consequent product b produce two output rows for b — consequent products are
not deduplicated to one entry per product. -/
theorem recommendations_duplicate_product :
    (get_product_recommendations
        [Rule.mk ["x"] ["b"] 1 1 1 1 3, Rule.mk ["x"] ["b"] 1 1 1 1 2] "x" 5).map
      (fun row => row.product) = ["b", "b"] := by
  decide

/-- C9 amended: the recommendation table is the `top_n` prefix of a
descending-lift sort of one row per (matching rule, consequent product)
occurrence — flattened without any deduplication of products. -/
theorem recommendations_characterization (rules : List Rule) (product_name : String)
    (top_n : ℕ) :
    ∃ l : List RecRow,
      l.Perm ((rules.filter (fun r => decide (product_name ∈ r.antecedents))).flatMap
        (fun r => r.consequents.map
          (fun p => RecRow.mk p r.confidence r.lift r.support))) ∧
      List.Pairwise (fun a b => b.lift ≤ a.lift) l ∧
      get_product_recommendations rules product_name top_n = l.take top_n := by
  haveI hT : IsTotal RecRow (fun a b => b.lift ≤ a.lift) :=
    ⟨fun a b => le_total b.lift a.lift⟩
  haveI hR : IsTrans RecRow (fun a b => b.lift ≤ a.lift) :=
    ⟨fun _ _ _ h1 h2 => le_trans h2 h1⟩
  exact ⟨_, List.perm_insertionSort _ _, List.sorted_insertionSort _ _, rfl⟩

/-! ## RFM analysis: data model (src/analytics/rfm_analysis.py) -/

/-- The ordered segment catalogue `SEGMENT_RULES`: name, (R range, F range,
M range) with inclusive min/max scores, in declared (priority) order. -/
def SEGMENT_RULES : List (String × (ℕ × ℕ) × (ℕ × ℕ) × (ℕ × ℕ)) :=
  [("Champions", (4, 5), (4, 5), (4, 5)),
   ("Loyal Customers", (3, 5), (3, 5), (3, 5)),
   ("Potential Loyalist", (4, 5), (1, 3), (3, 5)),
   ("New Customers", (4, 5), (1, 2), (1, 5)),
   ("Promising", (3, 4), (1, 2), (1, 3)),
   ("Need Attention", (2, 3), (2, 3), (2, 4)),
   ("About to Sleep", (2, 3), (1, 2), (1, 2)),
   ("At Risk", (1, 2), (3, 5), (3, 5)),
   ("Cant Lose Them", (1, 1), (4, 5), (4, 5)),
   ("Hibernating", (1, 2), (1, 2), (1, 3)),
   ("Lost", (1, 1), (1, 1), (1, 2))]

/-- The marketing strategy text per segment (`SEGMENT_STRATEGIES`). -/
def SEGMENT_STRATEGIES : List (String × String) :=
  [("Champions", "Reward with early access, exclusive offers. Ask for reviews and referrals."),
   ("Loyal Customers", "Upsell higher-value products. Engage with loyalty program."),
   ("Potential Loyalist", "Recommend products, offer membership benefits."),
   ("New Customers", "Onboarding series, provide excellent support."),
   ("Promising", "Create brand awareness, offer first-purchase incentives."),
   ("Need Attention", "Reactivate with limited-time offers, highlight new products."),
   ("About to Sleep", "Re-engage with personalized recommendations."),
   ("At Risk", "Send aggressive win-back campaigns, conduct surveys."),
   ("Cant Lose Them", "Personal outreach, premium support, understand their needs."),
   ("Hibernating", "Offer steep discounts, highlight value proposition."),
   ("Lost", "Attempt reactivation, but focus budget elsewhere.")]

/-- Whether a catalogue entry's three inclusive ranges contain the scores. -/
def segmentMatches (r f m : ℕ) (rule : String × (ℕ × ℕ) × (ℕ × ℕ) × (ℕ × ℕ)) : Bool :=
  decide (rule.2.1.1 ≤ r ∧ r ≤ rule.2.1.2 ∧ rule.2.2.1.1 ≤ f ∧ f ≤ rule.2.2.1.2 ∧
    rule.2.2.2.1 ≤ m ∧ m ≤ rule.2.2.2.2)

/-- `assign_segment`: the first matching catalogue entry in declared order,
else the R+F+M-sum fallback ladder. -/
def assign_segment (r f m : ℕ) : String :=
  match SEGMENT_RULES.find? (segmentMatches r f m) with
  | some rule => rule.1
  | none =>
    if 13 ≤ r + f + m then "Loyal Customers"
    else if 10 ≤ r + f + m then "Potential Loyalist"
    else if 7 ≤ r + f + m then "Need Attention"
    else if 4 ≤ r + f + m then "At Risk"
    else "Lost"

/-- One order-history row: customer id, order id, order date (in days) and
net revenue. -/
structure OrderRow where
  customer : String
  order_id : String
  date : ℤ
  revenue : ℚ
deriving DecidableEq

/-- One row of the `calculate_rfm` output. -/
structure RfmRow where
  customer : String
  Recency : ℤ
  Frequency : ℕ
  Monetary : ℚ
deriving DecidableEq

/-- `calculate_rfm`: group orders by customer; Recency = reference date minus
the customer's latest order date (in days), Frequency = number of distinct
order ids, Monetary = summed revenue.  Default reference date = latest order
date in the data + 1 day.  (pandas sorts group keys; key order affects no
proved property and the embedding keeps first-occurrence order.  Revenue is
summed with the reducible `qadd`.) -/
def calculate_rfm (rows : List OrderRow) (reference_date : Option ℤ) : List RfmRow :=
  let ref := match reference_date with
    | some d => d
    | none => ((rows.map (fun t => t.date)).max?.getD 0) + 1
  ((rows.map (fun t => t.customer)).dedup).map (fun c =>
    RfmRow.mk c
      (ref - (((rows.filter (fun t => t.customer == c)).map (fun t => t.date)).max?.getD 0))
      ((((rows.filter (fun t => t.customer == c)).map (fun t => t.order_id)).dedup).length)
      (((rows.filter (fun t => t.customer == c)).map (fun t => t.revenue)).foldl qadd 0))

/-- The `rank(method='first')` of the element at index `i`: 1 + the number of
strictly smaller values + the number of equal values at earlier positions. -/
def rankAt (xs : List ℚ) (i : ℕ) : ℕ :=
  1 + xs.countP (fun y => decide (y < xs.getD i 0)) +
    (xs.take i).countP (fun y => decide (y = xs.getD i 0))

/-- `rank(method='first')`: 1-based ranks, ties broken by original position. -/
def rankFirst (xs : List ℚ) : List ℚ :=
  (List.range xs.length).map (fun i => ((rankAt xs i : ℕ) : ℚ))

/-- The numpy linear-interpolation quantile of a sorted sample at
probability `p`. -/
def npQuantile (sorted : List ℚ) (p : ℚ) : ℚ :=
  let h := qmul p (((sorted.length - 1 : ℕ) : ℚ))
  let lo := sorted.getD h.floor.toNat 0
  let hi := sorted.getD (h.floor.toNat + 1) lo
  qadd lo (qmul (qsub h ((h.floor.toNat : ℕ) : ℚ)) (qsub hi lo))

/-- The `q + 1` quantile bin edges `pd.qcut` computes. -/
def qcutEdges (xs : List ℚ) (q : ℕ) : List ℚ :=
  (List.range (q + 1)).map (fun j =>
    npQuantile (xs.insertionSort (fun a b => a ≤ b)) (Rat.divInt j q))

/-- 1-based bin index of a value against the interior+right edges: the first
edge that is ≥ the value (right-closed intervals, the first one closed on the
left). -/
def binOfEdges : List ℚ → ℚ → ℕ
  | [], _ => 1
  | e :: es, x => if x ≤ e then 1 else 1 + binOfEdges es x

/-- `pd.qcut(xs, q, labels=range(1, q+1))` with ascending integer labels:
raises when the computed bin edges are not unique (`duplicates='raise'`),
except when there are exactly two edges (`len(bins) != 2` in
`_bins_to_cuts`).  On an empty input every quantile edge is NaN and pandas'
hashtable `unique` treats NaN as equal to NaN, so the edges collapse and the
call raises for q ≥ 2; here the quantiles of an empty sample all evaluate to
the same rational, so the same uniform uniqueness check reproduces that
behavior. -/
def qcut (xs : List ℚ) (q : ℕ) : Except String (List ℕ) :=
  if (qcutEdges xs q).dedup.length ≠ (qcutEdges xs q).length ∧
      (qcutEdges xs q).length ≠ 2 then
    Except.error "Bin edges must be unique" else
  Except.ok (xs.map (fun x => binOfEdges (qcutEdges xs q).tail x))

/-- One row of the `score_rfm` output. -/
structure ScoredRow where
  customer : String
  Recency : ℤ
  Frequency : ℕ
  Monetary : ℚ
  R_Score : ℕ
  F_Score : ℕ
  M_Score : ℕ
deriving DecidableEq

/-- `score_rfm`: Recency is quantile-cut directly with reversed labels
(`n_bins..1`, most recent = highest); Frequency and Monetary are first
rank-transformed (ties by original order) and then quantile-cut with
ascending labels `1..n_bins`. -/
def score_rfm (rows : List RfmRow) (n_bins : ℕ) : Except String (List ScoredRow) :=
  match qcut (rows.map (fun t => ((t.Recency : ℤ) : ℚ))) n_bins with
  | Except.error e => Except.error e
  | Except.ok rBins =>
    match qcut (rankFirst (rows.map (fun t => ((t.Frequency : ℕ) : ℚ)))) n_bins with
    | Except.error e => Except.error e
    | Except.ok fBins =>
      match qcut (rankFirst (rows.map (fun t => t.Monetary))) n_bins with
      | Except.error e => Except.error e
      | Except.ok mBins =>
        Except.ok ((rows.zip (rBins.zip (fBins.zip mBins))).map (fun rr =>
          ScoredRow.mk rr.1.customer rr.1.Recency rr.1.Frequency rr.1.Monetary
            (n_bins + 1 - rr.2.1) rr.2.2.1 rr.2.2.2))

/-- One row of the final segmentation table. -/
structure SegRow where
  customer : String
  Recency : ℤ
  Frequency : ℕ
  Monetary : ℚ
  R_Score : ℕ
  F_Score : ℕ
  M_Score : ℕ
  RFM_Segment : String
  Segment : String
  Strategy : String
  Last_Updated : ℤ
deriving DecidableEq

/-- Strategy text for a segment (`Series.map` over the strategy dict; a
missing key would map to NaN, embedded as the empty string — every catalogue
segment is present). -/
def strategyFor (s : String) : String :=
  match SEGMENT_STRATEGIES.find? (fun kv => kv.1 == s) with
  | some kv => kv.2
  | none => ""

/-- `create_rfm_segmentation`: the full RFM pipeline.  `has_platform_col`
models whether the input table has a Platform column; `now` is the
`datetime.now()` reading stored in Last_Updated.  `group_cols` is computed
from `include_platform` exactly as in the source and, exactly as in the
source, never passed to `calculate_rfm`.  Scores are single digits, so the
f-string `RFM_Segment` is three digit characters. -/
def create_rfm_segmentation (rows : List OrderRow) (has_platform_col : Bool)
    (reference_date : Option ℤ) (include_platform : Bool) (now : ℤ) :
    Except String (List SegRow) :=
  let group_cols : ℕ := if include_platform && has_platform_col then 2 else 1
  match score_rfm (calculate_rfm rows reference_date) 5 with
  | Except.error e => Except.error e
  | Except.ok scored => Except.ok (scored.map (fun s =>
      SegRow.mk s.customer s.Recency s.Frequency s.Monetary s.R_Score s.F_Score
        s.M_Score
        (String.mk [Nat.digitChar s.R_Score, Nat.digitChar s.F_Score,
          Nat.digitChar s.M_Score])
        (assign_segment s.R_Score s.F_Score s.M_Score)
        (strategyFor (assign_segment s.R_Score s.F_Score s.M_Score))
        now))

/-- The fallback tier ladder transcribed from the spec's words (sum ≥ 13 →
Loyal-Customers tier, ≥ 10 → next tier, ≥ 7 → mid tier, ≥ 4 → low tier, else
lowest), for comparison against the classifier. -/
def fallbackTiersSpec (s : ℕ) : String :=
  if 13 ≤ s then "Loyal Customers"
  else if 10 ≤ s then "Potential Loyalist"
  else if 7 ≤ s then "Need Attention"
  else if 4 ≤ s then "At Risk"
  else "Lost"

/-- C3: on every score triple in {1..5}³ the classifier returns a segment
name of the catalogue (total, exactly one result since it is a function); the
result is the first declared catalogue entry whose three inclusive ranges
contain the scores when one matches, and otherwise is determined by the
R+F+M sum ladder exactly as the spec words it; (5,5,5) classifies as
Champions via a direct range match (the catalogue lookup itself returns
Champions). -/
theorem assign_segment_total_first_match_fallback :
    (∀ r ∈ Finset.Icc 1 5, ∀ f ∈ Finset.Icc 1 5, ∀ m ∈ Finset.Icc 1 5,
      assign_segment r f m ∈ SEGMENT_RULES.map (fun rule => rule.1)) ∧
    (∀ r ∈ Finset.Icc 1 5, ∀ f ∈ Finset.Icc 1 5, ∀ m ∈ Finset.Icc 1 5,
      assign_segment r f m =
        ((SEGMENT_RULES.find? (segmentMatches r f m)).map (fun rule => rule.1)).getD
          (fallbackTiersSpec (r + f + m))) ∧
    ((SEGMENT_RULES.find? (segmentMatches 5 5 5)).map (fun rule => rule.1) =
      some "Champions") ∧
    assign_segment 5 5 5 = "Champions" := by
  decide

/-- Witness for C3 at the catalogue-gap triple (2,5,1): the classifier still
returns a catalogue segment name (via the fallback, sum 8). -/
theorem assign_segment_total_first_match_fallback_witness :
    assign_segment 2 5 1 ∈ SEGMENT_RULES.map (fun rule => rule.1) :=
  assign_segment_total_first_match_fallback.1 2 (by decide) 5 (by decide) 1 (by decide)

/-- C10: `include_platform` has no observable effect — `group_cols` is
computed from it but never passed on, so the output with
include_platform = true equals the output with include_platform = false for
every input, reference date and timestamp. -/
theorem include_platform_no_effect (rows : List OrderRow) (has_platform_col : Bool)
    (reference_date : Option ℤ) (now : ℤ) :
    create_rfm_segmentation rows has_platform_col reference_date true now =
      create_rfm_segmentation rows has_platform_col reference_date false now := rfl

/-- C4 (code bug): the miner does degrade to an empty table on a matrix with
no orders without raising; but the rule generator indexes the `length` column
of the empty itemset table (`pd.DataFrame([])`, which has no columns) and
raises KeyError, so the full basket pipeline raises on empty input instead of
returning an empty rule set (shown at the default thresholds
min_support = 0.005, min_confidence = 0.2, min_lift = 1); and on an order
history with no customers the RFM pipeline raises too: the quantile edges of
the empty Recency series all collapse and qcut raises ValueError instead of
the pipeline returning an empty table. -/
theorem empty_input_behavior :
    (∀ (products : List String) (ms : ℚ) (maxLen : ℕ),
      find_frequent_itemsets (BasketMatrix.mk products []) ms maxLen = []) ∧
    (∀ mc ml : ℚ, generate_associion_rules [] mc ml = Except.error "KeyError: length") ∧
    market_basket_analysis [] (Rat.divInt 1 200) (Rat.divInt 1 5) 1 3 =
      ([], Except.error "KeyError: length") ∧
    (∀ (has_platform_col include_platform : Bool) (reference_date : Option ℤ) (now : ℤ),
      create_rfm_segmentation [] has_platform_col reference_date include_platform now =
        Except.error "Bin edges must be unique") := by
  refine ⟨find_frequent_itemsets_no_orders, fun mc ml => rfl, by decide, ?_⟩
  intro has_platform_col include_platform reference_date now
  have hcalc : calculate_rfm [] reference_date = [] := rfl
  have hscore : score_rfm ([] : List RfmRow) 5 =
      Except.error "Bin edges must be unique" := by decide
  simp only [create_rfm_segmentation, hcalc, hscore]

/-- C6 counterexample: two runs at different wall-clock instants on identical
input, identical parameters and an explicitly supplied reference date produce
different output tables — Last_Updated stores `datetime.now()`. -/
theorem rfm_output_depends_on_clock :
    create_rfm_segmentation
        [OrderRow.mk "A" "o1" 1 10, OrderRow.mk "B" "o2" 2 20, OrderRow.mk "C" "o3" 3 30,
          OrderRow.mk "D" "o4" 4 40, OrderRow.mk "E" "o5" 5 50]
        false (some 6) false 0 ≠
      create_rfm_segmentation
        [OrderRow.mk "A" "o1" 1 10, OrderRow.mk "B" "o2" 2 20, OrderRow.mk "C" "o3" 3 30,
          OrderRow.mk "D" "o4" 4 40, OrderRow.mk "E" "o5" 5 50]
        false (some 6) false 1 := by
  decide

/-- Projection of an output row onto every column except Last_Updated. -/
def stripLastUpdated (s : SegRow) : ScoredRow × String × String × String :=
  (ScoredRow.mk s.customer s.Recency s.Frequency s.Monetary s.R_Score s.F_Score
    s.M_Score, s.RFM_Segment, s.Segment, s.Strategy)

/-- C6 amended: with identical input and parameters, the basket pipeline is
deterministic, and two RFM runs agree in every column except Last_Updated
(which stores the wall-clock reading at run time, even when reference_date is
supplied explicitly); byte-identical RFM tables additionally require fixing
the clock. -/
theorem pipeline_deterministic_modulo_timestamp
    (rows : List Txn) (ms mc ml : ℚ) (maxLen : ℕ)
    (orows : List OrderRow) (has_platform_col : Bool) (reference_date : Option ℤ)
    (include_platform : Bool) (t1 t2 : ℤ) :
    market_basket_analysis rows ms mc ml maxLen =
      market_basket_analysis rows ms mc ml maxLen ∧
    (create_rfm_segmentation orows has_platform_col reference_date include_platform
        t1).map (fun l => l.map stripLastUpdated) =
      (create_rfm_segmentation orows has_platform_col reference_date include_platform
        t2).map (fun l => l.map stripLastUpdated) := by
  refine ⟨rfl, ?_⟩
  simp only [create_rfm_segmentation]
  cases score_rfm (calculate_rfm orows reference_date) 5 with
  | error e => rfl
  | ok scored =>
    simp only [Except.map, List.map_map]
    rfl

/-! ## The rank transform hits each of 1..n exactly once -/

theorem countP_disjoint (p q : ℚ → Bool) (l : List ℚ)
    (h : ∀ a ∈ l, ¬(p a = true ∧ q a = true)) :
    l.countP (fun a => p a || q a) = l.countP p + l.countP q := by
  induction l with
  | nil => simp
  | cons a l ih =>
    rw [List.countP_cons, List.countP_cons, List.countP_cons,
      ih (fun b hb => h b (List.mem_cons_of_mem a hb))]
    have ha := h a (List.mem_cons_self a l)
    cases hp : p a <;> cases hq : q a <;> simp [hp, hq] at ha ⊢ <;> omega

theorem count_lt_add_count_eq_le (xs : List ℚ) (x : ℚ) :
    xs.countP (fun y => decide (y < x)) + xs.countP (fun y => decide (y = x)) ≤
      xs.length := by
  rw [← countP_disjoint _ _ _ ?disj]
  · exact List.countP_le_length _
  case disj =>
    intro a _ hc
    simp only [decide_eq_true_eq] at hc
    exact absurd hc.2 (ne_of_lt hc.1)

theorem take_count_eq_lt (xs : List ℚ) (i : ℕ) (h : i < xs.length) :
    (xs.take i).countP (fun y => decide (y = xs.getD i 0)) + 1 ≤
      xs.countP (fun y => decide (y = xs.getD i 0)) := by
  set x := xs.getD i 0 with hx
  have hdrop : xs.drop i = x :: xs.drop (i + 1) := by
    rw [hx, List.getD_eq_getElem xs 0 h]
    exact List.drop_eq_getElem_cons h
  have hsplit : xs.countP (fun y => decide (y = x)) =
      (xs.take i).countP (fun y => decide (y = x)) +
        (xs.drop i).countP (fun y => decide (y = x)) := by
    conv_lhs => rw [← List.take_append_drop i xs]
    rw [List.countP_append]
  rw [hsplit, hdrop, List.countP_cons]
  simp

theorem rankAt_le_length (xs : List ℚ) (i : ℕ) (h : i < xs.length) :
    rankAt xs i ≤ xs.length := by
  have h1 := take_count_eq_lt xs i h
  have h2 := count_lt_add_count_eq_le xs (xs.getD i 0)
  rw [rankAt]
  omega

theorem rankAt_lt_of_val_lt (xs : List ℚ) (i j : ℕ) (hi : i < xs.length)
    (hlt : xs.getD i 0 < xs.getD j 0) : rankAt xs i < rankAt xs j := by
  have h1 := take_count_eq_lt xs i hi
  have h2 : xs.countP (fun y => decide (y < xs.getD i 0)) +
      xs.countP (fun y => decide (y = xs.getD i 0)) ≤
      xs.countP (fun y => decide (y < xs.getD j 0)) := by
    rw [← countP_disjoint _ _ _ ?disj]
    · apply List.countP_mono_left
      intro a _ ha
      simp only [Bool.or_eq_true, decide_eq_true_eq] at ha ⊢
      rcases ha with ha | ha
      · exact ha.trans hlt
      · exact ha ▸ hlt
    case disj =>
      intro a _ hc
      simp only [decide_eq_true_eq] at hc
      exact absurd hc.2 (ne_of_lt hc.1)
  rw [rankAt, rankAt]
  omega

theorem rankAt_lt_of_val_eq (xs : List ℚ) (i j : ℕ) (hij : i < j) (hj : j < xs.length)
    (heq : xs.getD i 0 = xs.getD j 0) : rankAt xs i < rankAt xs j := by
  have hi : i < xs.length := lt_trans hij hj
  have hkey : (xs.take i).countP (fun y => decide (y = xs.getD j 0)) + 1 ≤
      (xs.take j).countP (fun y => decide (y = xs.getD j 0)) := by
    have hsplit : xs.take j = xs.take i ++ (xs.drop i).take (j - i) := by
      conv_lhs => rw [show j = i + (j - i) by omega, List.take_add]
    rw [hsplit, List.countP_append]
    have hdrop : xs.drop i = xs.getD i 0 :: xs.drop (i + 1) := by
      rw [List.getD_eq_getElem xs 0 hi]
      exact List.drop_eq_getElem_cons hi
    have hji : j - i = (j - i - 1) + 1 := by omega
    rw [hdrop, hji, List.take_succ_cons, List.countP_cons, heq]
    simp
  rw [rankAt, rankAt, heq]
  omega

theorem rankAt_injOn (xs : List ℚ) :
    ∀ i ∈ List.range xs.length, ∀ j ∈ List.range xs.length,
      rankAt xs i = rankAt xs j → i = j := by
  intro i hi j hj hEq
  rw [List.mem_range] at hi hj
  by_contra hne
  rcases lt_trichotomy (xs.getD i 0) (xs.getD j 0) with h | h | h
  · exact absurd hEq (Nat.ne_of_lt (rankAt_lt_of_val_lt xs i j hi h))
  · rcases Nat.lt_or_ge i j with hij | hge
    · exact absurd hEq (Nat.ne_of_lt (rankAt_lt_of_val_eq xs i j hij hj h))
    · have hji : j < i := by omega
      exact absurd hEq.symm (Nat.ne_of_lt (rankAt_lt_of_val_eq xs j i hji hi h.symm))
  · exact absurd hEq.symm (Nat.ne_of_lt (rankAt_lt_of_val_lt xs j i hj h))

theorem natRanks_perm (xs : List ℚ) :
    ((List.range xs.length).map (rankAt xs)).Perm
      ((List.range xs.length).map (fun i => i + 1)) := by
  have hnodup : ((List.range xs.length).map (rankAt xs)).Nodup :=
    (List.nodup_range _).map_on (rankAt_injOn xs)
  have hsub : (List.range xs.length).map (rankAt xs) ⊆
      (List.range xs.length).map (fun i => i + 1) := by
    intro a ha
    obtain ⟨i, hi, rfl⟩ := List.mem_map.mp ha
    rw [List.mem_range] at hi
    have hle := rankAt_le_length xs i hi
    have hpos : 1 ≤ rankAt xs i := by
      rw [rankAt]
      omega
    refine List.mem_map.mpr ⟨rankAt xs i - 1, ?_, by omega⟩
    rw [List.mem_range]
    omega
  have hsp : List.Subperm ((List.range xs.length).map (rankAt xs))
      ((List.range xs.length).map (fun i => i + 1)) := hnodup.subperm hsub
  apply hsp.perm_of_length_le
  rw [List.length_map, List.length_map]

/-- The ranks 1..n as rationals. -/
def oneToN (n : ℕ) : List ℚ := (List.range n).map (fun i => ((i + 1 : ℕ) : ℚ))

theorem rankFirst_perm (xs : List ℚ) : (rankFirst xs).Perm (oneToN xs.length) := by
  have hmap := (natRanks_perm xs).map (fun k : ℕ => (k : ℚ))
  rw [List.map_map, List.map_map] at hmap
  exact hmap

theorem sort_rankFirst_ten (xs : List ℚ) (hlen : xs.length = 10) :
    (rankFirst xs).insertionSort (fun a b => a ≤ b) = oneToN 10 := by
  have hperm : ((rankFirst xs).insertionSort (fun a b => a ≤ b)).Perm (oneToN 10) :=
    (List.perm_insertionSort _ _).trans (hlen ▸ rankFirst_perm xs)
  have hs2 : List.Sorted (fun a b : ℚ => a ≤ b) (oneToN 10) := by decide
  exact List.eq_of_perm_of_sorted hperm (List.sorted_insertionSort _ _) hs2

theorem qcut_ok_length {xs : List ℚ} {q : ℕ} {l : List ℕ}
    (h : qcut xs q = Except.ok l) : l.length = xs.length := by
  by_cases h1 : (qcutEdges xs q).dedup.length ≠ (qcutEdges xs q).length ∧
      (qcutEdges xs q).length ≠ 2
  · rw [qcut, if_pos h1] at h
    cases h
  · rw [qcut, if_neg h1] at h
    injection h with h3
    rw [← h3, List.length_map]

theorem qcut_ok_elim {xs : List ℚ} {q : ℕ} {l : List ℕ}
    (h : qcut xs q = Except.ok l) :
    l = xs.map (fun x => binOfEdges (qcutEdges xs q).tail x) := by
  by_cases hc : (qcutEdges xs q).dedup.length ≠ (qcutEdges xs q).length ∧
      (qcutEdges xs q).length ≠ 2
  · rw [qcut, if_pos hc] at h
    cases h
  · rw [qcut, if_neg hc] at h
    injection h with h2
    exact h2.symm

theorem zip_scores_m_col (n_bins : ℕ) :
    ∀ (rows : List RfmRow) (rb fb mb : List ℕ),
      rows.length = rb.length → rows.length = fb.length → rows.length = mb.length →
      (((rows.zip (rb.zip (fb.zip mb))).map (fun rr =>
        ScoredRow.mk rr.1.customer rr.1.Recency rr.1.Frequency rr.1.Monetary
          (n_bins + 1 - rr.2.1) rr.2.2.1 rr.2.2.2)).map (fun t => t.M_Score)) = mb := by
  intro rows
  induction rows with
  | nil =>
    intro rb fb mb _ _ h3
    cases mb with
    | nil => rfl
    | cons a l => simp at h3
  | cons r rows ih =>
    intro rb fb mb h1 h2 h3
    cases rb with
    | nil => simp at h1
    | cons b rb =>
      cases fb with
      | nil => simp at h2
      | cons f fb =>
        cases mb with
        | nil => simp at h3
        | cons m mb =>
          simp only [List.zip_cons_cons, List.map_cons]
          rw [ih rb fb mb (by simpa using h1) (by simpa using h2) (by simpa using h3)]

theorem score_rfm_ok_elim {rows : List RfmRow} {n_bins : ℕ} {out : List ScoredRow}
    (h : score_rfm rows n_bins = Except.ok out) :
    ∃ rb fb mb,
      qcut (rows.map (fun t => ((t.Recency : ℤ) : ℚ))) n_bins = Except.ok rb ∧
      qcut (rankFirst (rows.map (fun t => ((t.Frequency : ℕ) : ℚ)))) n_bins =
        Except.ok fb ∧
      qcut (rankFirst (rows.map (fun t => t.Monetary))) n_bins = Except.ok mb ∧
      out = (rows.zip (rb.zip (fb.zip mb))).map (fun rr =>
        ScoredRow.mk rr.1.customer rr.1.Recency rr.1.Frequency rr.1.Monetary
          (n_bins + 1 - rr.2.1) rr.2.2.1 rr.2.2.2) := by
  rw [score_rfm] at h
  cases hR : qcut (rows.map (fun t => ((t.Recency : ℤ) : ℚ))) n_bins with
  | error e =>
    rw [hR] at h
    cases h
  | ok rb =>
    rw [hR] at h
    cases hF : qcut (rankFirst (rows.map (fun t => ((t.Frequency : ℕ) : ℚ)))) n_bins with
    | error e =>
      rw [hF] at h
      cases h
    | ok fb =>
      rw [hF] at h
      cases hM : qcut (rankFirst (rows.map (fun t => t.Monetary))) n_bins with
      | error e =>
        rw [hM] at h
        cases h
      | ok mb =>
        rw [hM] at h
        injection h with h2
        exact ⟨rb, fb, mb, rfl, rfl, rfl, h2.symm⟩

/-- C7 amended: for every ten-row RFM input on which score_rfm succeeds (its
Recency binning admits five distinct quantile edges), exactly two customers
receive each M_Score value 1..5 — identical Monetary raw values included,
because of the rank-first tie-break before the quantile cut. -/
theorem m_score_two_per_bucket (rows : List RfmRow) (out : List ScoredRow)
    (hlen : rows.length = 10) (hok : score_rfm rows 5 = Except.ok out) :
    ∀ s ∈ Finset.Icc 1 5, out.countP (fun t => t.M_Score == s) = 2 := by
  obtain ⟨rb, fb, mb, hR, hF, hM, hout⟩ := score_rfm_ok_elim hok
  have hlenMX : (rows.map (fun t => t.Monetary)).length = 10 := by
    rw [List.length_map, hlen]
  have hrankLen : (rankFirst (rows.map (fun t => t.Monetary))).length = 10 := by
    rw [rankFirst, List.length_map, List.length_range, hlenMX]
  have hrbLen : rb.length = 10 := by
    rw [qcut_ok_length hR, List.length_map, hlen]
  have hfbLen : fb.length = 10 := by
    rw [qcut_ok_length hF, rankFirst, List.length_map, List.length_range,
      List.length_map, hlen]
  have hmbLen : mb.length = 10 := by
    rw [qcut_ok_length hM, hrankLen]
  have hcol : out.map (fun t => t.M_Score) = mb := by
    rw [hout]
    exact zip_scores_m_col 5 rows rb fb mb (by omega) (by omega) (by omega)
  have hsort := sort_rankFirst_ten (rows.map (fun t => t.Monetary)) hlenMX
  have hE : qcutEdges (rankFirst (rows.map (fun t => t.Monetary))) 5 =
      qcutEdges (oneToN 10) 5 := by
    rw [qcutEdges, qcutEdges, hsort,
      (show (oneToN 10).insertionSort (fun a b => a ≤ b) = oneToN 10 by decide)]
  have hmb : mb = (rankFirst (rows.map (fun t => t.Monetary))).map
      (fun x => binOfEdges (qcutEdges (oneToN 10) 5).tail x) := by
    rw [qcut_ok_elim hM, hE]
  intro s hs
  have h1 : out.countP (fun t => t.M_Score == s) = mb.countP (fun b => b == s) := by
    rw [← hcol, List.countP_map]
    rfl
  rw [h1, hmb, List.countP_map]
  have hperm : (rankFirst (rows.map (fun t => t.Monetary))).Perm (oneToN 10) := by
    have hp := rankFirst_perm (rows.map (fun t => t.Monetary))
    rwa [hlenMX] at hp
  rw [hperm.countP_eq]
  fin_cases hs <;> decide

/-- C7 counterexample: a ten-row RFM input (identical Recency values) on
which score_rfm raises `Bin edges must be unique` before assigning any
M_Score — so not every ten-row input distributes two customers per bucket. -/
theorem score_rfm_fails_on_degenerate_recency :
    score_rfm
        [RfmRow.mk "c1" 5 1 1, RfmRow.mk "c2" 5 1 2, RfmRow.mk "c3" 5 1 3,
          RfmRow.mk "c4" 5 1 4, RfmRow.mk "c5" 5 1 5, RfmRow.mk "c6" 5 1 6,
          RfmRow.mk "c7" 5 1 7, RfmRow.mk "c8" 5 1 8, RfmRow.mk "c9" 5 1 9,
          RfmRow.mk "c10" 5 1 10] 5 = Except.error "Bin edges must be unique" ∧
    [RfmRow.mk "c1" 5 1 1, RfmRow.mk "c2" 5 1 2, RfmRow.mk "c3" 5 1 3,
      RfmRow.mk "c4" 5 1 4, RfmRow.mk "c5" 5 1 5, RfmRow.mk "c6" 5 1 6,
      RfmRow.mk "c7" 5 1 7, RfmRow.mk "c8" 5 1 8, RfmRow.mk "c9" 5 1 9,
      RfmRow.mk "c10" 5 1 10].length = 10 := by
  decide

/-- Witness for the amended C7 on a ten-row input with many tied Monetary
values on which score_rfm succeeds: each M_Score bucket holds exactly two
customers. -/
theorem m_score_two_per_bucket_witness :
    score_rfm
        [RfmRow.mk "c1" 1 1 7, RfmRow.mk "c2" 2 1 7, RfmRow.mk "c3" 3 1 7,
          RfmRow.mk "c4" 4 1 7, RfmRow.mk "c5" 5 2 7, RfmRow.mk "c6" 6 2 7,
          RfmRow.mk "c7" 7 2 2, RfmRow.mk "c8" 8 3 2, RfmRow.mk "c9" 9 3 2,
          RfmRow.mk "c10" 10 3 1] 5 =
      Except.ok
        [ScoredRow.mk "c1" 1 1 7 5 1 3, ScoredRow.mk "c2" 2 1 7 5 1 3,
          ScoredRow.mk "c3" 3 1 7 4 2 4, ScoredRow.mk "c4" 4 1 7 4 2 4,
          ScoredRow.mk "c5" 5 2 7 3 3 5, ScoredRow.mk "c6" 6 2 7 3 3 5,
          ScoredRow.mk "c7" 7 2 2 2 4 1, ScoredRow.mk "c8" 8 3 2 2 4 2,
          ScoredRow.mk "c9" 9 3 2 1 5 2, ScoredRow.mk "c10" 10 3 1 1 5 1] ∧
    (∀ s ∈ Finset.Icc 1 5,
      ([ScoredRow.mk "c1" 1 1 7 5 1 3, ScoredRow.mk "c2" 2 1 7 5 1 3,
        ScoredRow.mk "c3" 3 1 7 4 2 4, ScoredRow.mk "c4" 4 1 7 4 2 4,
        ScoredRow.mk "c5" 5 2 7 3 3 5, ScoredRow.mk "c6" 6 2 7 3 3 5,
        ScoredRow.mk "c7" 7 2 2 2 4 1, ScoredRow.mk "c8" 8 3 2 2 4 2,
        ScoredRow.mk "c9" 9 3 2 1 5 2,
        ScoredRow.mk "c10" 10 3 1 1 5 1].countP (fun t => t.M_Score == s)) = 2) :=
  ⟨by decide,
    m_score_two_per_bucket
      [RfmRow.mk "c1" 1 1 7, RfmRow.mk "c2" 2 1 7, RfmRow.mk "c3" 3 1 7,
        RfmRow.mk "c4" 4 1 7, RfmRow.mk "c5" 5 2 7, RfmRow.mk "c6" 6 2 7,
        RfmRow.mk "c7" 7 2 2, RfmRow.mk "c8" 8 3 2, RfmRow.mk "c9" 9 3 2,
        RfmRow.mk "c10" 10 3 1]
      [ScoredRow.mk "c1" 1 1 7 5 1 3, ScoredRow.mk "c2" 2 1 7 5 1 3,
        ScoredRow.mk "c3" 3 1 7 4 2 4, ScoredRow.mk "c4" 4 1 7 4 2 4,
        ScoredRow.mk "c5" 5 2 7 3 3 5, ScoredRow.mk "c6" 6 2 7 3 3 5,
        ScoredRow.mk "c7" 7 2 2 2 4 1, ScoredRow.mk "c8" 8 3 2 2 4 2,
        ScoredRow.mk "c9" 9 3 2 1 5 2, ScoredRow.mk "c10" 10 3 1 1 5 1]
      (by decide) (by decide)⟩
